import Mathlib

/-!
Verification of the scope-resolution / code-generation-support layer
(`compiler/block.py`) of the grumpy Python-to-Go transpiler.

The Python source is shallowly embedded: each class method becomes a Lean
function over explicit state, the writer becomes a list of emitted
instructions, Python sets become duplicate-free lists (`List.insert`), and
the `OrderedDict` of classified variables becomes an insertion-ordered
association list.  Fallible operations (`util.ParseError`, an uncaught
`KeyError`) return `Except Err`.
-/

namespace GrumpyBlock

/-! ### Variable records (`class Var`)

`Var.TYPE_LOCAL / TYPE_PARAM / TYPE_GLOBAL`; a parameter additionally
carries its `arg_index`. -/

inductive VarK where
  | localK : VarK
  | paramK (arg_index : Nat) : VarK
  | globalK : VarK
deriving DecidableEq, Repr

/-- Method `Var.__init__` sets `init_expr` from the variable kind:
`πg.UnboundLocal` for locals, `πArgs[i]` for parameters, nothing for
globals. -/
def VarK.init_expr : VarK → Option String
  | .localK => some "πg.UnboundLocal"
  | .paramK i => some ("πArgs[" ++ toString i ++ "]")
  | .globalK => none

/-! ### Temporaries and labels (`Block.__init__`, `alloc_temp`,
`free_temp`, `genlabel`, `push_loop`, `pop_loop`, `top_loop`) -/

/-- The generated name of the `i`-th temporary:
`'πTemp\x7b:03d\x7d'.format(i)`, i.e. `πTemp` followed by `i` zero-padded
to at least three digits. -/
def tempName (i : Nat) : String :=
  "πTemp" ++ (if i < 10 then "00" else if i < 100 then "0" else "") ++ toString i

/-- A `GeneratedTempVar`: its creation index (which determines its
generated name) and its Go type tag. -/
structure Temp where
  index : Nat
  type_ : String
deriving DecidableEq, Repr

def Temp.name (v : Temp) : String := tempName v.index

/-- The per-block mutable state set up in `Block.__init__`:
`free_temps`, `used_temps`, `temp_index`, `label_count`, `checkpoints`,
`loop_stack`.  Python sets are modelled as duplicate-free lists. -/
structure BlockState where
  free_temps : List Temp
  used_temps : List Temp
  temp_index : Nat
  label_count : Nat
  checkpoints : List Nat
  loop_stack : List (Nat × Nat)
deriving DecidableEq, Repr

/-- The state of a freshly constructed block. -/
def initBlock : BlockState :=
  { free_temps := [], used_temps := [], temp_index := 0,
    label_count := 0, checkpoints := [], loop_stack := [] }

/-- Loop `for v in sorted(self.free_temps, key=lambda k: k.name): if v.type_ ==
type_: return v` — the matching free temporary whose generated name is
lexicographically least (first seen wins ties). -/
def pickFree (type_ : String) : List Temp → Option Temp
  | [] => none
  | v :: rest =>
    match pickFree type_ rest with
    | none => if v.type_ = type_ then some v else none
    | some w => if v.type_ = type_ ∧ v.name ≤ w.name then some v else some w

/-- Method `Block.alloc_temp`: reuse the name-least matching free temporary, or
synthesize a fresh one named from the bumped `temp_index`. -/
def alloc_temp (type_ : String) (s : BlockState) : Temp × BlockState :=
  match pickFree type_ s.free_temps with
  | some v =>
    (v, { s with free_temps := s.free_temps.erase v,
                 used_temps := s.used_temps.insert v })
  | none =>
    let i := s.temp_index + 1
    let v : Temp := { index := i, type_ := type_ }
    (v, { s with temp_index := i, used_temps := s.used_temps.insert v })

/-- Method `Block.free_temp`: `used_temps.remove(v)` raises when `v` is absent
(modelled as `none`); otherwise move `v` from the used set to the free
set. -/
def free_temp (v : Temp) (s : BlockState) : Option BlockState :=
  if v ∈ s.used_temps then
    some { s with used_temps := s.used_temps.erase v,
                  free_temps := s.free_temps.insert v }
  else none

/-- Method `Block.genlabel`: bump `label_count`, record it as a checkpoint when
requested, and return it. -/
def genlabel (is_checkpoint : Bool) (s : BlockState) : Nat × BlockState :=
  let n := s.label_count + 1
  (n, { s with label_count := n,
               checkpoints :=
                 if is_checkpoint then s.checkpoints.insert n
                 else s.checkpoints })

/-- Method `Block.push_loop`: two fresh labels become the loop descriptor pushed
on the loop stack. -/
def push_loop (s : BlockState) : (Nat × Nat) × BlockState :=
  let (start_label, s1) := genlabel false s
  let (end_label, s2) := genlabel false s1
  let loop := (start_label, end_label)
  (loop, { s2 with loop_stack := loop :: s2.loop_stack })

/-- Method `Block.pop_loop` (`list.pop()` raises on an empty stack). -/
def pop_loop (s : BlockState) : Option BlockState :=
  match s.loop_stack with
  | [] => none
  | _ :: rest => some { s with loop_stack := rest }

/-- Method `Block.top_loop` (`loop_stack[-1]`, undefined on an empty stack). -/
def top_loop (s : BlockState) : Option (Nat × Nat) := s.loop_stack.head?

/-! ### String interning (`Block.intern`) -/

/-- A character of the identifier alphabet, i.e. not matched by
`_non_word_re = re.compile('[^A-Za-z0-9_]')`. -/
def isWordChar (c : Char) : Bool :=
  ('A' ≤ c && c ≤ 'Z') || ('a' ≤ c && c ≤ 'z') || ('0' ≤ c && c ≤ '9') || c == '_'

/-- The string expression returned by `Block.intern`: either a fresh
literal `πg.NewStr(util.go_str(s))` or the reference `ß` + `s` to the
interned constant. -/
inductive StrExpr where
  | lit (s : String) : StrExpr
  | interned (s : String) : StrExpr
deriving DecidableEq, Repr

/-- The Python-level string an interning expression denotes. -/
def StrExpr.pyName : StrExpr → String
  | .lit s => s
  | .interned s => s

/-- State shared through code emission: the module-level interned-string
set (`ModuleBlock._strings`) and the emitting block's temporaries. -/
structure CompState where
  strings : List String
  temps : BlockState
deriving DecidableEq, Repr

def initComp : CompState := { strings := [], temps := initBlock }

/-- Method `Block.intern`: strings longer than 64 characters or containing a
non-word character are not cached; otherwise the string is added to the
per-module set and a `ß`-reference is returned. -/
def intern (s : String) (st : CompState) : StrExpr × CompState :=
  if 64 < s.length || s.data.any (fun c => !(isWordChar c)) then
    (.lit s, st)
  else
    (.interned s, { st with strings := st.strings.insert s })

/-! ### Errors

`util.ParseError` diagnostics raised by this unit, plus the uncaught
Python `KeyError` that `FunctionBlock.bind_var` hits on an unknown name
(`self.vars[name]`). -/

inductive Err where
  | duplicateArgument (name : String) : Err
  | parameterAndGlobal (name : String) : Err
  | usedPriorToGlobal (name : String) : Err
  | deleteNonexistentLocal (name : String) : Err
  | keyError (name : String) : Err
deriving DecidableEq, Repr

/-- Whether an error is a diagnosed `util.ParseError` (as opposed to the
raw `KeyError`). -/
def Err.isParseError : Err → Bool
  | .keyError _ => false
  | _ => true

/-! ### Emitted instructions

One constructor per distinct writer fragment that the three blocks'
`bind_var` / `del_var` / `resolve_name` emit. -/

inductive Instr where
  | setGlobalItem (name : StrExpr) (value : String) : Instr
  | delGlobal (name : StrExpr) : Instr
  | setClassItem (name : StrExpr) (value : String) : Instr
  | delClass (name : StrExpr) : Instr
  | resolveGlobal (dst : Temp) (name : StrExpr) : Instr
  | resolveClass (dst : Temp) (localRef : Option String) (name : StrExpr) : Instr
  | checkLocal (local_name : String) (py_name : String) : Instr
  | setLocal (local_name : String) (value : String) : Instr
deriving DecidableEq, Repr

/-- Modelled from the spec: `util.adjust_local_name` (module `util` is not
part of the analyzed sources) maps a Python variable name to the
identifier of its storage slot in the generated function; modelled as
prefix tagging. -/
def adjust_local_name (name : String) : String := "µ" ++ name

/-! ### ModuleBlock operations -/

namespace ModuleBlock

/-- Method `ModuleBlock.bind_var`: `πGlobals.SetItem(πF, intern(name).ToObject(),
value)`. -/
def bind_var (name value : String) (st : CompState) : List Instr × CompState :=
  let (e, st1) := intern name st
  ([.setGlobalItem e value], st1)

/-- Method `ModuleBlock.del_var`: `πg.DelVar(πF, πGlobals, intern(name))`. -/
def del_var (name : String) (st : CompState) : List Instr × CompState :=
  let (e, st1) := intern name st
  ([.delGlobal e], st1)

end ModuleBlock

/-- Method `Block._resolve_global`: allocate a temporary, then emit
`dst = πg.ResolveGlobal(πF, πGlobals, intern(name))`. -/
def _resolve_global (name : String) (st : CompState) :
    Temp × List Instr × CompState :=
  let (result, temps1) := alloc_temp "*πg.Object" st.temps
  let (e, st1) := intern name { st with temps := temps1 }
  (result, [.resolveGlobal result e], st1)

/-- Method `ModuleBlock.resolve_name` simply delegates to `_resolve_global`. -/
def ModuleBlock.resolve_name (name : String) (st : CompState) :
    Temp × List Instr × CompState :=
  _resolve_global name st

/-! ### Block chains

For name resolution only a block's chain of ancestors matters; each
ancestor is a module, a class (with its set of names declared global), or
a function (with its classified variable map). -/

inductive BlockK where
  | moduleB : BlockK
  | classB (global_vars : List String) : BlockK
  | functionB (vars : List (String × VarK)) : BlockK
deriving DecidableEq, Repr

/-- First-match lookup in an insertion-ordered association list
(`OrderedDict` access / `dict.get`). -/
def lookupVar : List (String × VarK) → String → Option VarK
  | [], _ => none
  | (k, v) :: rest, n => if k = n then some v else lookupVar rest n

/-- The outward walk of `ClassBlock.resolve_name`: starting from the
parent, skip class blocks, stop at the module, and stop at the first
function block whose variable map contains the name, yielding that
entry. -/
def classWalk (name : String) : List BlockK → Option VarK
  | [] => none
  | .moduleB :: _ => none
  | .classB _ :: rest => classWalk name rest
  | .functionB vars :: rest =>
    match lookupVar vars name with
    | some var => some var
    | none => classWalk name rest

/-! ### ClassBlock operations -/

/-- A class block: the set of names declared `global` in the class body
plus the chain of enclosing blocks (parent first, ending at the module). -/
structure ClassBlock where
  global_vars : List String
  parents : List BlockK
deriving Repr

namespace ClassBlock

/-- Method `ClassBlock.bind_var`: delegate to the module for declared-global
names, otherwise `πClass.SetItem(πF, intern(name).ToObject(), value)`. -/
def bind_var (cb : ClassBlock) (name value : String) (st : CompState) :
    List Instr × CompState :=
  if name ∈ cb.global_vars then ModuleBlock.bind_var name value st
  else
    let (e, st1) := intern name st
    ([.setClassItem e value], st1)

/-- Method `ClassBlock.del_var`: delegate to the module for declared-global
names, otherwise `πg.DelVar(πF, πClass, intern(name))`. -/
def del_var (cb : ClassBlock) (name : String) (st : CompState) :
    List Instr × CompState :=
  if name ∈ cb.global_vars then ModuleBlock.del_var name st
  else
    let (e, st1) := intern name st
    ([.delClass e], st1)

/-- The `local` argument computed by the first half of
`ClassBlock.resolve_name`: `nil` (here `none`) for a declared-global
name; otherwise the adjusted name of the nearest enclosing function-block
entry when that entry's kind is not global, and `nil` when the walk found
nothing or found a global entry. -/
def capturedLocal (cb : ClassBlock) (name : String) : Option String :=
  if name ∈ cb.global_vars then none
  else
    match classWalk name cb.parents with
    | some var => if var ≠ .globalK then some (adjust_local_name name) else none
    | none => none

/-- Method `ClassBlock.resolve_name`: unless the name is declared global in this
class body, walk outward for the nearest enclosing function-block entry;
capture its adjusted local name when its kind is not global.  Always emit
`dst = πg.ResolveClass(πF, πClass, local, πGlobals, intern(name))` with
`local = nil` when nothing was captured. -/
def resolve_name (cb : ClassBlock) (name : String) (st : CompState) :
    Temp × List Instr × CompState :=
  let localRef : Option String := capturedLocal cb name
  let (result, temps1) := alloc_temp "*πg.Object" st.temps
  let (e, st1) := intern name { st with temps := temps1 }
  (result, [.resolveClass result localRef e], st1)

end ClassBlock

/-! ### FunctionBlock operations -/

/-- A function block: its classified variable map. -/
structure FunctionBlock where
  vars : List (String × VarK)
deriving Repr

namespace FunctionBlock

/-- Method `FunctionBlock.bind_var`: `self.vars[name]` raises an uncaught
`KeyError` on an unknown name; a global is delegated to the module;
otherwise a plain write to the local slot. -/
def bind_var (fb : FunctionBlock) (name value : String) (st : CompState) :
    Except Err (List Instr × CompState) :=
  match lookupVar fb.vars name with
  | none => .error (.keyError name)
  | some var =>
    if var = .globalK then .ok (ModuleBlock.bind_var name value st)
    else .ok ([.setLocal (adjust_local_name name) value], st)

/-- Method `FunctionBlock.del_var`: unknown names are a compile-time
`ParseError`; globals are delegated to the module; otherwise check that
the local slot is bound, then write the unbound sentinel into it. -/
def del_var (fb : FunctionBlock) (name : String) (st : CompState) :
    Except Err (List Instr × CompState) :=
  match lookupVar fb.vars name with
  | none => .error (.deleteNonexistentLocal name)
  | some var =>
    if var = .globalK then .ok (ModuleBlock.del_var name st)
    else
      let adjusted_name := adjust_local_name name
      .ok ([.checkLocal adjusted_name name,
            .setLocal adjusted_name "πg.UnboundLocal"], st)

end FunctionBlock

/-! ### Semantics of the emitted resolution primitives

Modelled from the spec: the target-runtime primitives `πg.ResolveGlobal`
and `πg.ResolveClass` are part of the Go runtime, not of the analyzed
sources.  Following the spec's words, `ResolveGlobal` looks the name up
in the module namespace, and `ResolveClass` tries the captured local
reference (if any) first, then the class's own namespace, then falls back
to the module namespace, failing (here: `none`) if all three miss. -/
def evalResolve (locals : String → Option Nat)
    (classNS moduleNS : String → Option Nat) : Instr → Option Nat
  | .resolveGlobal _ e => moduleNS e.pyName
  | .resolveClass _ localRef e =>
    ((localRef.bind locals).orElse fun _ =>
      (classNS e.pyName).orElse fun _ => moduleNS e.pyName)
  | _ => none

/-! ### The scope classifier (`BlockVisitor` / `FunctionBlockVisitor`)

The AST fragment the visitor dispatches on.  Expressions matter to the
visitor only in that traversing them registers nothing (there is no
`visit_Name`); statement bodies are the nested statement lists that
`generic_visit` recurses into.  A nested `FunctionDef`'s body is carried
but never visited. -/

inductive Expr' where
  | nameE (id : String) : Expr'
  | constE : Expr'
  | binE (a b : Expr') : Expr'

mutual
inductive Targ where
  | nameT (id : String) : Targ
  | tupleT (elts : Targs) : Targ
  | listT (elts : Targs) : Targ
  | otherT : Targ
inductive Targs where
  | nil : Targs
  | cons (t : Targ) (rest : Targs) : Targs
end

/-- An `ast.alias` of an import statement: the dotted module name and the
optional `as` name. -/
structure ImportAlias where
  name : String
  asname : Option String

/-- Expression `alias.name.split('.')[0]`. -/
def firstDotComponent (s : String) : String :=
  (s.split (fun c => c == '.')).headD s

/-- The name an `import` alias binds: `alias.asname or
alias.name.split('.')[0]`. -/
def importBoundName (a : ImportAlias) : String :=
  a.asname.getD (firstDotComponent a.name)

/-- The name an `import from` alias binds: `alias.asname or alias.name`. -/
def importFromBoundName (a : ImportAlias) : String :=
  a.asname.getD a.name

mutual
inductive Stmt where
  | assignS (targets : Targs) (value : Expr') : Stmt
  | augAssignS (target : Targ) (value : Expr') : Stmt
  | classDefS (nm : String) : Stmt
  | exceptHandlerS (nm : Option String) (body : Stmts) : Stmt
  | forS (target : Targ) (iter : Expr') (body : Stmts) : Stmt
  | functionDefS (nm : String) (body : Stmts) : Stmt
  | globalS (names : List String) : Stmt
  | importS (aliases : List ImportAlias) : Stmt
  | importFromS (aliases : List ImportAlias) : Stmt
  | withS (optional_vars : Option Targ) (body : Stmts) : Stmt
  | exprS (value : Expr') : Stmt
  | ifS (cond : Expr') (thenBody elseBody : Stmts) : Stmt
  | whileS (cond : Expr') (body : Stmts) : Stmt
inductive Stmts where
  | nil : Stmts
  | cons (s : Stmt) (rest : Stmts) : Stmts
end

/-- Method `BlockVisitor._register_local`: record the name as a local only when
it is not yet in the map. -/
def _register_local (vars : List (String × VarK)) (name : String) :
    List (String × VarK) :=
  match lookupVar vars name with
  | some _ => vars
  | none => vars ++ [(name, .localK)]

/-- Method `BlockVisitor._register_global`: a parameter or an
already-assigned-local name fails; an already-global name is left alone;
a fresh name is recorded as global. -/
def _register_global (vars : List (String × VarK)) (name : String) :
    Except Err (List (String × VarK)) :=
  match lookupVar vars name with
  | some (.paramK _) => .error (.parameterAndGlobal name)
  | some .localK => .error (.usedPriorToGlobal name)
  | some .globalK => .ok vars
  | none => .ok (vars ++ [(name, .globalK)])

/-- Method `visit_Global`: register every name of the declaration in order. -/
def _register_globals (vars : List (String × VarK)) :
    List String → Except Err (List (String × VarK))
  | [] => .ok vars
  | n :: rest =>
    match _register_global vars n with
    | .error e => .error e
    | .ok v1 => _register_globals v1 rest

mutual
/-- Method `BlockVisitor._assign_target`: a `Name` target registers a local; a
tuple or list target recurses into its elements; other targets (attribute
or subscript assignments) register nothing. -/
def _assign_target (vars : List (String × VarK)) : Targ → List (String × VarK)
  | .nameT id => _register_local vars id
  | .tupleT elts => _assign_target_list vars elts
  | .listT elts => _assign_target_list vars elts
  | .otherT => vars
def _assign_target_list (vars : List (String × VarK)) : Targs → List (String × VarK)
  | .nil => vars
  | .cons t rest => _assign_target_list (_assign_target vars t) rest
end

mutual
/-- One `BlockVisitor.visit_*` dispatch.  Expression children are
traversed by `generic_visit` but register nothing, so they are omitted;
a nested `FunctionDef` / `ClassDef` registers only the defined name and
does not visit the nested body. -/
def visit (vars : List (String × VarK)) : Stmt → Except Err (List (String × VarK))
  | .assignS targets _value => .ok (_assign_target_list vars targets)
  | .augAssignS target _value => .ok (_assign_target vars target)
  | .classDefS nm => .ok (_register_local vars nm)
  | .exceptHandlerS nm body =>
    visit_list (match nm with
      | some n => _register_local vars n
      | none => vars) body
  | .forS target _iter body => visit_list (_assign_target vars target) body
  | .functionDefS nm _body => .ok (_register_local vars nm)
  | .globalS names => _register_globals vars names
  | .importS aliases =>
    .ok (aliases.foldl (fun vs a => _register_local vs (importBoundName a)) vars)
  | .importFromS aliases =>
    .ok (aliases.foldl (fun vs a => _register_local vs (importFromBoundName a)) vars)
  | .withS optional_vars body =>
    visit_list (match optional_vars with
      | some t => _assign_target vars t
      | none => vars) body
  | .exprS _value => .ok vars
  | .ifS _cond thenBody elseBody =>
    match visit_list vars thenBody with
    | .error e => .error e
    | .ok v1 => visit_list v1 elseBody
  | .whileS _cond body => visit_list vars body
def visit_list (vars : List (String × VarK)) : Stmts → Except Err (List (String × VarK))
  | .nil => .ok vars
  | .cons s rest =>
    match visit vars s with
    | .error e => .error e
    | .ok v1 => visit_list v1 rest
end

/-- Running a plain `BlockVisitor` over a class body: start from an empty
map. -/
def BlockVisitor (body : Stmts) : Except Err (List (String × VarK)) :=
  visit_list [] body

/-- The flat parameter list of a `FunctionDef`: positional argument
names, then the `*args` name if any, then the `**kwargs` name if any. -/
structure Arguments where
  args : List String
  vararg : Option String
  kwarg : Option String

def paramList (a : Arguments) : List String :=
  a.args ++ a.vararg.toList ++ a.kwarg.toList

/-- The parameter-registration loop of `FunctionBlockVisitor.__init__`:
`for i, name in enumerate(args)`, failing on a name already in the map,
otherwise recording it as parameter `i`. -/
def registerParams (vars : List (String × VarK)) (i : Nat) :
    List String → Except Err (List (String × VarK))
  | [] => .ok vars
  | n :: rest =>
    if (lookupVar vars n).isSome then .error (.duplicateArgument n)
    else registerParams (vars ++ [(n, .paramK i)]) (i + 1) rest

/-- A full `FunctionBlockVisitor` run over a function: parameters are
registered by `__init__`, then the body is visited. -/
def FunctionBlockVisitor (a : Arguments) (body : Stmts) :
    Except Err (List (String × VarK)) :=
  match registerParams [] 0 (paramList a) with
  | .error e => .error e
  | .ok vars0 => visit_list vars0 body

/-! ### Syntactic name sets of a body (specification side)

`boundNames*` enumerates the names a body binds directly (assignment /
`for` / `with` / `except` targets, imports, `global` declarations, nested
definition names); `readNames*` enumerates the names read directly from
expression position.  Both exclude nested function bodies' internals. -/

def exprNames : Expr' → List String
  | .nameE id => [id]
  | .constE => []
  | .binE a b => exprNames a ++ exprNames b

mutual
def targNames : Targ → List String
  | .nameT id => [id]
  | .tupleT elts => targsNames elts
  | .listT elts => targsNames elts
  | .otherT => []
def targsNames : Targs → List String
  | .nil => []
  | .cons t rest => targNames t ++ targsNames rest
end

mutual
def boundNames : Stmt → List String
  | .assignS targets _ => targsNames targets
  | .augAssignS target _ => targNames target
  | .classDefS nm => [nm]
  | .exceptHandlerS nm body =>
    (match nm with | some n => [n] | none => []) ++ boundNamesList body
  | .forS target _ body => targNames target ++ boundNamesList body
  | .functionDefS nm _ => [nm]
  | .globalS names => names
  | .importS aliases => aliases.map importBoundName
  | .importFromS aliases => aliases.map importFromBoundName
  | .withS optional_vars body =>
    (match optional_vars with | some t => targNames t | none => []) ++ boundNamesList body
  | .exprS _ => []
  | .ifS _ thenBody elseBody => boundNamesList thenBody ++ boundNamesList elseBody
  | .whileS _ body => boundNamesList body
def boundNamesList : Stmts → List String
  | .nil => []
  | .cons s rest => boundNames s ++ boundNamesList rest
end

/-! ### Remaining auxiliary definitions used by the verification -/

/-- The map keys, in insertion order. -/
def varKeys (l : List (String × VarK)) : List String := l.map Prod.fst

/-- The variable entries that registering the parameter names
`names` starting at ordinal `i` produces when no name repeats. -/
def paramEntries (i : Nat) : List String → List (String × VarK)
  | [] => []
  | n :: rest => (n, .paramK i) :: paramEntries (i + 1) rest

/-- Run a sequence of `genlabel` calls, collecting the returned ids. -/
def runLabels : List Bool → BlockState → List Nat × BlockState
  | [], s => ([], s)
  | b :: rest, s =>
    let p := genlabel b s
    let q := runLabels rest p.2
    (p.1 :: q.1, q.2)

/-- The label ids a call sequence flags as checkpoints, when the ids
handed out are `start, start+1, ...`. -/
def expectedCheckpoints (start : Nat) : List Bool → List Nat
  | [] => []
  | b :: rest =>
    (if b then [start] else []) ++ expectedCheckpoints (start + 1) rest

/-- Postcondition of one successful classifier step starting from `vars`
and ending at `v·`: the map only grows at the tail, duplicate-freedom of
the keys is preserved, and exactly the names in `new` become present. -/
def VisitOk (vars v' : List (String × VarK)) (new : List String) : Prop :=
  (∃ t, v' = vars ++ t) ∧
  ((varKeys vars).Nodup → (varKeys v').Nodup) ∧
  (∀ n, (lookupVar v' n).isSome ↔ (lookupVar vars n).isSome ∨ n ∈ new)

/-- Invariant of a block's temporary pools: both are duplicate-free,
disjoint, and every allocated temporary's index is no larger than
`temp_index`. -/
def TempInv (s : BlockState) : Prop :=
  s.free_temps.Nodup ∧ s.used_temps.Nodup ∧
  (∀ v ∈ s.free_temps, v ∉ s.used_temps) ∧
  (∀ v ∈ s.free_temps, v.index ≤ s.temp_index) ∧
  (∀ v ∈ s.used_temps, v.index ≤ s.temp_index)

/-- The block states reachable from a fresh block through the resource
allocator's operations. -/
inductive Reachable : BlockState → Prop where
  | init : Reachable initBlock
  | alloc (t : String) (s : BlockState) : Reachable s → Reachable (alloc_temp t s).2
  | free (v : Temp) (s s' : BlockState) :
      Reachable s → free_temp v s = some s' → Reachable s'
  | label (b : Bool) (s : BlockState) : Reachable s → Reachable (genlabel b s).2
  | pushL (s : BlockState) : Reachable s → Reachable (push_loop s).2
  | popL (s s' : BlockState) : Reachable s → pop_loop s = some s' → Reachable s'

/-- The specification's reading of `ClassBlock.resolve_name` on a name
declared global in the class body: it claims the class scope resolves
the name by delegating to direct module-scope resolution. -/
def classResolveGlobalSpec (name : String) (st : CompState) :
    Temp × List Instr × CompState :=
  ModuleBlock.resolve_name name st

mutual
def readNames : Stmt → List String
  | .assignS _ value => exprNames value
  | .augAssignS _ value => exprNames value
  | .classDefS _ => []
  | .exceptHandlerS _ body => readNamesList body
  | .forS _ iter body => exprNames iter ++ readNamesList body
  | .functionDefS _ _ => []
  | .globalS _ => []
  | .importS _ => []
  | .importFromS _ => []
  | .withS _ body => readNamesList body
  | .exprS value => exprNames value
  | .ifS cond thenBody elseBody =>
    exprNames cond ++ readNamesList thenBody ++ readNamesList elseBody
  | .whileS cond body => exprNames cond ++ readNamesList body
def readNamesList : Stmts → List String
  | .nil => []
  | .cons s rest => readNames s ++ readNamesList rest
end

/-! ## Helper lemmas -/

theorem lookupVar_append_of_none (vars : List (String × VarK)) (x : String) (k : VarK)
    (h : lookupVar vars x = none) : lookupVar (vars ++ [(x, k)]) x = some k := by
  induction vars with
  | nil => simp [lookupVar]
  | cons p rest ih =>
    obtain ⟨a, b⟩ := p
    by_cases hax : a = x
    · simp [lookupVar, hax] at h
    · simp only [lookupVar, hax, if_false] at h
      simpa only [List.cons_append, lookupVar, hax, if_false] using ih h

/-! ## Claim C5 -/

/-- C5: on a Function scope, `del_var` of a name absent from the variable
map fails at compile time with a diagnosed `ParseError`; of a present
name of kind global it delegates to the Module scope's `del_var`; of any
other present name it emits the runtime bound-check on the local slot
first and the write of the unbound sentinel second, in that order. -/
theorem FunctionBlock.del_var_spec (fb : FunctionBlock) (name : String) (st : CompState) :
    (lookupVar fb.vars name = none →
      fb.del_var name st = .error (.deleteNonexistentLocal name) ∧
      (Err.deleteNonexistentLocal name).isParseError = true) ∧
    (lookupVar fb.vars name = some .globalK →
      fb.del_var name st = .ok (ModuleBlock.del_var name st)) ∧
    (∀ k, lookupVar fb.vars name = some k → k ≠ .globalK →
      fb.del_var name st =
        .ok ([Instr.checkLocal (adjust_local_name name) name,
              Instr.setLocal (adjust_local_name name) "πg.UnboundLocal"], st)) := by
  refine ⟨?_, ?_, ?_⟩
  · intro h
    exact ⟨by simp [FunctionBlock.del_var, h], rfl⟩
  · intro h
    simp [FunctionBlock.del_var, h]
  · intro k hk hkg
    simp [FunctionBlock.del_var, hk, hkg]

theorem FunctionBlock.del_var_spec_witness :
    FunctionBlock.del_var ⟨[("x", VarK.localK)]⟩ "x" initComp =
      .ok ([Instr.checkLocal (adjust_local_name "x") "x",
            Instr.setLocal (adjust_local_name "x") "πg.UnboundLocal"], initComp) :=
  (FunctionBlock.del_var_spec ⟨[("x", VarK.localK)]⟩ "x" initComp).2.2
    VarK.localK (by decide) (by decide)

/-! ## Claim C10 -/

/-- C10: on a Function scope, `bind_var` of a name absent from the
variable map fails with the raw key-lookup error (not the diagnosed
`ParseError` that `del_var` raises in the analogous case) and emits
nothing; the error result contrasts with `del_var`'s diagnosed error on
the same input. -/
theorem FunctionBlock.bind_var_absent (fb : FunctionBlock) (name value : String)
    (st : CompState) (h : lookupVar fb.vars name = none) :
    fb.bind_var name value st = .error (.keyError name) ∧
    (Err.keyError name).isParseError = false ∧
    fb.del_var name st = .error (.deleteNonexistentLocal name) ∧
    (Err.deleteNonexistentLocal name).isParseError = true :=
  ⟨by simp [FunctionBlock.bind_var, h], rfl, by simp [FunctionBlock.del_var, h], rfl⟩

theorem FunctionBlock.bind_var_absent_witness :
    FunctionBlock.bind_var ⟨[]⟩ "x" "v" initComp = .error (.keyError "x") ∧
    (Err.keyError "x").isParseError = false ∧
    FunctionBlock.del_var ⟨[]⟩ "x" initComp = .error (.deleteNonexistentLocal "x") ∧
    (Err.deleteNonexistentLocal "x").isParseError = true :=
  FunctionBlock.bind_var_absent ⟨[]⟩ "x" "v" initComp rfl

/-! ## Claim C9 -/

/-- C9: `intern` of a string longer than 64 characters or containing a
character outside the identifier alphabet registers nothing and returns
the fresh-literal expression; otherwise it registers the string in the
per-unit set, the set contains the string exactly once, and a repeated
call returns the same reference and leaves the state unchanged. -/
theorem intern_spec (s : String) (st : CompState) :
    ((64 < s.length ∨ ¬ (∀ c ∈ s.data, isWordChar c = true)) →
      intern s st = (StrExpr.lit s, st)) ∧
    (s.length ≤ 64 → (∀ c ∈ s.data, isWordChar c = true) →
      intern s st = (StrExpr.interned s, { st with strings := st.strings.insert s }) ∧
      s ∈ (intern s st).2.strings ∧
      (st.strings.Nodup →
        (intern s st).2.strings.Nodup ∧ (intern s st).2.strings.count s = 1) ∧
      intern s (intern s st).2 = (StrExpr.interned s, (intern s st).2)) := by
  constructor
  · intro h
    have hg : (64 < s.length || s.data.any fun c => !(isWordChar c)) = true := by
      rcases h with h | h
      · simp [h]
      · push_neg at h
        rcases h with ⟨c, hc, hw⟩
        refine Bool.or_eq_true_iff.mpr (Or.inr ?_)
        exact List.any_eq_true.mpr ⟨c, hc, by simp [hw]⟩
    simp [intern, hg]
  · intro hlen hword
    have hg : (64 < s.length || s.data.any fun c => !(isWordChar c)) = false := by
      refine Bool.or_eq_false_iff.mpr ⟨?_, ?_⟩
      · simpa using Nat.not_lt.mpr hlen
      · exact List.any_eq_false.mpr (fun c hc => by simp [hword c hc])
    have h1 : intern s st = (StrExpr.interned s, { st with strings := st.strings.insert s }) := by
      simp [intern, hg]
    have hmem : s ∈ (intern s st).2.strings := by
      rw [h1]
      exact List.mem_insert_self s st.strings
    refine ⟨h1, hmem, ?_, ?_⟩
    · intro hnd
      have hnd' : (intern s st).2.strings.Nodup := by
        rw [h1]; exact hnd.insert
      exact ⟨hnd', List.count_eq_one_of_mem hnd' hmem⟩
    · have h2 : intern s (intern s st).2 =
          (StrExpr.interned s,
           { (intern s st).2 with strings := (intern s st).2.strings.insert s }) := by
        simp [intern, hg]
      rw [h2, List.insert_of_mem hmem]

theorem intern_spec_witness :
    intern "foo" initComp =
      (StrExpr.interned "foo", { initComp with strings := initComp.strings.insert "foo" }) ∧
    intern "foo" (intern "foo" initComp).2 = (StrExpr.interned "foo", (intern "foo" initComp).2) :=
  ⟨((intern_spec "foo" initComp).2 (by decide) (by decide)).1,
   ((intern_spec "foo" initComp).2 (by decide) (by decide)).2.2.2⟩

/-! ## Claim C4 -/

/-- C4: a `global x` declaration fails when `x` is already registered as
a parameter, fails when `x` is already registered as a local, and
otherwise registers `x` as global; an assignment to `x` processed after
`x` is registered global leaves the map — and hence `x`'s kind —
unchanged. -/
theorem register_global_spec (vars : List (String × VarK)) (x : String) :
    (∀ i, lookupVar vars x = some (.paramK i) →
      _register_global vars x = .error (.parameterAndGlobal x)) ∧
    (lookupVar vars x = some .localK →
      _register_global vars x = .error (.usedPriorToGlobal x)) ∧
    (lookupVar vars x = none →
      _register_global vars x = .ok (vars ++ [(x, .globalK)]) ∧
      lookupVar (vars ++ [(x, .globalK)]) x = some .globalK) ∧
    (lookupVar vars x = some .globalK →
      _assign_target vars (.nameT x) = vars ∧
      lookupVar (_assign_target vars (.nameT x)) x = some .globalK) := by
  refine ⟨?_, ?_, ?_, ?_⟩
  · intro i h
    simp [_register_global, h]
  · intro h
    simp [_register_global, h]
  · intro h
    exact ⟨by simp [_register_global, h], lookupVar_append_of_none vars x _ h⟩
  · intro h
    have ha : _assign_target vars (.nameT x) = vars := by
      simp [_assign_target, _register_local, h]
    exact ⟨ha, by rw [ha, h]⟩

theorem register_global_spec_witness :
    _register_global [("p", VarK.paramK 0)] "p" = .error (.parameterAndGlobal "p") ∧
    _register_global [("a", VarK.localK)] "a" = .error (.usedPriorToGlobal "a") ∧
    _register_global [] "g" = .ok [("g", VarK.globalK)] ∧
    _assign_target [("g", VarK.globalK)] (.nameT "g") = [("g", VarK.globalK)] :=
  ⟨(register_global_spec [("p", VarK.paramK 0)] "p").1 0 (by decide),
   (register_global_spec [("a", VarK.localK)] "a").2.1 (by decide),
   ((register_global_spec [] "g").2.2.1 (by decide)).1,
   ((register_global_spec [("g", VarK.globalK)] "g").2.2.2 (by decide)).1⟩

theorem lookupVar_append (vars tail : List (String × VarK)) (x : String) :
    lookupVar (vars ++ tail) x =
      match lookupVar vars x with
      | some k => some k
      | none => lookupVar tail x := by
  induction vars with
  | nil => simp [lookupVar]
  | cons p rest ih =>
    obtain ⟨a, b⟩ := p
    by_cases hax : a = x
    · simp [lookupVar, hax]
    · simp only [List.cons_append, lookupVar, hax, if_false]
      exact ih

theorem lookupVar_eq_none_iff (vars : List (String × VarK)) (n : String) :
    lookupVar vars n = none ↔ n ∉ varKeys vars := by
  induction vars with
  | nil => simp [lookupVar, varKeys]
  | cons p rest ih =>
    obtain ⟨a, b⟩ := p
    by_cases hax : a = n
    · simp [lookupVar, hax, varKeys]
    · simp only [lookupVar, hax, if_false, varKeys, List.map_cons, List.mem_cons]
      rw [ih]
      constructor
      · intro h hor
        rcases hor with hor | hor
        · exact hax hor.symm
        · exact h hor
      · intro h
        exact fun hm => h (Or.inr hm)

/-! ## Claim C7 -/

theorem runLabels_spec (flags : List Bool) (s : BlockState) :
    (runLabels flags s).1 = List.range' (s.label_count + 1) flags.length ∧
    (runLabels flags s).2.label_count = s.label_count + flags.length ∧
    ∀ m, m ∈ (runLabels flags s).2.checkpoints ↔
      m ∈ s.checkpoints ∨ m ∈ expectedCheckpoints (s.label_count + 1) flags := by
  induction flags generalizing s with
  | nil => simp [runLabels, expectedCheckpoints]
  | cons b rest ih =>
    obtain ⟨h1, h2, h3⟩ := ih (genlabel b s).2
    have hl : (genlabel b s).2.label_count = s.label_count + 1 := rfl
    rw [hl] at h1 h2 h3
    refine ⟨?_, ?_, ?_⟩
    · simp only [runLabels]
      rw [h1, List.length_cons, List.range'_succ]
      rfl
    · simp only [runLabels]
      rw [h2, List.length_cons]
      omega
    · intro m
      simp only [runLabels]
      rw [h3 m]
      have hcp : (genlabel b s).2.checkpoints =
          if b then s.checkpoints.insert (s.label_count + 1) else s.checkpoints := rfl
      rw [hcp]
      cases b with
      | false => simp [expectedCheckpoints]
      | true =>
        simp only [if_true, List.mem_insert_iff, expectedCheckpoints, List.mem_append,
          List.mem_singleton]
        tauto

/-- C7: starting from a fresh scope, the ids returned by successive
`genlabel` calls are exactly `1, 2, …`, hence strictly increasing and
starting at 1, and the final checkpoint set holds exactly the ids
returned by the calls made with `is_checkpoint = true`. -/
theorem genlabel_trace (flags : List Bool) :
    (runLabels flags initBlock).1 = List.range' 1 flags.length ∧
    (runLabels flags initBlock).1.Pairwise (· < ·) ∧
    ∀ m, m ∈ (runLabels flags initBlock).2.checkpoints ↔
      m ∈ expectedCheckpoints 1 flags := by
  obtain ⟨h1, _, h3⟩ := runLabels_spec flags initBlock
  have hzero : initBlock.label_count = 0 := rfl
  rw [hzero] at h1 h3
  refine ⟨h1, ?_, ?_⟩
  · rw [h1]
    exact List.pairwise_lt_range' 1 flags.length
  · intro m
    rw [h3 m]
    simp [initBlock]

/-! ## Classifier step lemmas -/

theorem visitOk_refl (vars : List (String × VarK)) : VisitOk vars vars [] :=
  ⟨⟨[], by simp⟩, id, fun n => by simp⟩

theorem visitOk_trans {a b c : List (String × VarK)} {xs ys : List String}
    (h1 : VisitOk a b xs) (h2 : VisitOk b c ys) : VisitOk a c (xs ++ ys) := by
  obtain ⟨⟨t1, hp1⟩, hn1, hm1⟩ := h1
  obtain ⟨⟨t2, hp2⟩, hn2, hm2⟩ := h2
  refine ⟨⟨t1 ++ t2, by rw [hp2, hp1, List.append_assoc]⟩, fun h => hn2 (hn1 h), fun n => ?_⟩
  rw [hm2 n, hm1 n, List.mem_append]
  tauto

theorem visitOk_append_one (vars : List (String × VarK)) (m : String) (k : VarK)
    (h : lookupVar vars m = none) : VisitOk vars (vars ++ [(m, k)]) [m] := by
  refine ⟨⟨[(m, k)], rfl⟩, ?_, ?_⟩
  · intro hnd
    have hm : m ∉ varKeys vars := (lookupVar_eq_none_iff vars m).mp h
    simp only [varKeys, List.map_append, List.map_cons, List.map_nil] at hnd ⊢
    rw [List.nodup_append]
    refine ⟨hnd, List.nodup_singleton m, fun a ha hb => ?_⟩
    simp only [List.mem_singleton] at hb
    subst hb
    exact hm ha
  · intro n
    rw [lookupVar_append]
    cases hv : lookupVar vars n with
    | some k' => simp
    | none =>
      by_cases hmn : m = n
      · subst hmn
        simp [lookupVar]
      · simp [lookupVar, hmn, Ne.symm hmn]

theorem register_local_ok (vars : List (String × VarK)) (m : String) :
    VisitOk vars (_register_local vars m) [m] := by
  cases hv : lookupVar vars m with
  | some k =>
    have he : _register_local vars m = vars := by simp [_register_local, hv]
    rw [he]
    refine ⟨⟨[], by simp⟩, id, fun n => ?_⟩
    by_cases hnm : n = m
    · subst hnm
      simp [hv]
    · simp [hnm]
  | none =>
    have he : _register_local vars m = vars ++ [(m, .localK)] := by simp [_register_local, hv]
    rw [he]
    exact visitOk_append_one vars m _ hv

theorem register_global_ok (vars : List (String × VarK)) (m : String)
    (v' : List (String × VarK)) (h : _register_global vars m = .ok v') :
    VisitOk vars v' [m] := by
  cases hv : lookupVar vars m with
  | some k =>
    cases k with
    | paramK i => simp [_register_global, hv] at h
    | localK => simp [_register_global, hv] at h
    | globalK =>
      simp only [_register_global, hv] at h
      injection h with h
      subst h
      refine ⟨⟨[], by simp⟩, id, fun n => ?_⟩
      by_cases hnm : n = m
      · subst hnm
        simp [hv]
      · simp [hnm]
  | none =>
    simp only [_register_global, hv] at h
    injection h with h
    subst h
    exact visitOk_append_one vars m _ hv

theorem register_globals_ok (names : List String) :
    ∀ vars v', _register_globals vars names = .ok v' → VisitOk vars v' names := by
  induction names with
  | nil =>
    intro vars v' h
    simp only [_register_globals] at h
    injection h with h
    subst h
    exact visitOk_refl vars
  | cons n rest ih =>
    intro vars v' h
    simp only [_register_globals] at h
    cases hg : _register_global vars n with
    | error e => rw [hg] at h; simp at h
    | ok v1 =>
      rw [hg] at h
      have o1 := register_global_ok vars n v1 hg
      have o2 := ih v1 v' h
      simpa using visitOk_trans o1 o2

mutual
theorem assign_target_ok : ∀ (t : Targ) (vars : List (String × VarK)),
    VisitOk vars (_assign_target vars t) (targNames t)
  | .nameT id, vars => by
    simpa [_assign_target, targNames] using register_local_ok vars id
  | .tupleT elts, vars => by
    simpa [_assign_target, targNames] using assign_target_list_ok elts vars
  | .listT elts, vars => by
    simpa [_assign_target, targNames] using assign_target_list_ok elts vars
  | .otherT, vars => by
    simpa [_assign_target, targNames] using visitOk_refl vars
theorem assign_target_list_ok : ∀ (ts : Targs) (vars : List (String × VarK)),
    VisitOk vars (_assign_target_list vars ts) (targsNames ts)
  | .nil, vars => by
    simpa [_assign_target_list, targsNames] using visitOk_refl vars
  | .cons t rest, vars => by
    have h1 := assign_target_ok t vars
    have h2 := assign_target_list_ok rest (_assign_target vars t)
    simpa [_assign_target_list, targsNames] using visitOk_trans h1 h2
end

theorem foldl_register_local_ok (f : ImportAlias → String) (aliases : List ImportAlias) :
    ∀ vars, VisitOk vars (aliases.foldl (fun vs a => _register_local vs (f a)) vars)
      (aliases.map f) := by
  induction aliases with
  | nil =>
    intro vars
    simpa using visitOk_refl vars
  | cons a rest ih =>
    intro vars
    have h1 := register_local_ok vars (f a)
    have h2 := ih (_register_local vars (f a))
    simpa using visitOk_trans h1 h2

mutual
theorem visit_ok : ∀ (s : Stmt) (vars v' : List (String × VarK)),
    visit vars s = .ok v' → VisitOk vars v' (boundNames s)
  | .assignS targets _value, vars, v', h => by
    simp only [visit] at h
    injection h with h
    subst h
    simpa [boundNames] using assign_target_list_ok targets vars
  | .augAssignS target _value, vars, v', h => by
    simp only [visit] at h
    injection h with h
    subst h
    simpa [boundNames] using assign_target_ok target vars
  | .classDefS nm, vars, v', h => by
    simp only [visit] at h
    injection h with h
    subst h
    simpa [boundNames] using register_local_ok vars nm
  | .exceptHandlerS nm body, vars, v', h => by
    simp only [visit] at h
    cases nm with
    | some n =>
      have h1 := register_local_ok vars n
      have h2 := visit_list_ok body (_register_local vars n) v' h
      simpa [boundNames] using visitOk_trans h1 h2
    | none =>
      simpa [boundNames] using visit_list_ok body vars v' h
  | .forS target _iter body, vars, v', h => by
    simp only [visit] at h
    have h1 := assign_target_ok target vars
    have h2 := visit_list_ok body (_assign_target vars target) v' h
    simpa [boundNames] using visitOk_trans h1 h2
  | .functionDefS nm _body, vars, v', h => by
    simp only [visit] at h
    injection h with h
    subst h
    simpa [boundNames] using register_local_ok vars nm
  | .globalS names, vars, v', h => by
    simp only [visit] at h
    simpa [boundNames] using register_globals_ok names vars v' h
  | .importS aliases, vars, v', h => by
    simp only [visit] at h
    injection h with h
    subst h
    simpa [boundNames] using foldl_register_local_ok importBoundName aliases vars
  | .importFromS aliases, vars, v', h => by
    simp only [visit] at h
    injection h with h
    subst h
    simpa [boundNames] using foldl_register_local_ok importFromBoundName aliases vars
  | .withS optional_vars body, vars, v', h => by
    simp only [visit] at h
    cases optional_vars with
    | some t =>
      have h1 := assign_target_ok t vars
      have h2 := visit_list_ok body (_assign_target vars t) v' h
      simpa [boundNames] using visitOk_trans h1 h2
    | none =>
      simpa [boundNames] using visit_list_ok body vars v' h
  | .exprS _value, vars, v', h => by
    simp only [visit] at h
    injection h with h
    subst h
    simpa [boundNames] using visitOk_refl vars
  | .ifS _cond thenBody elseBody, vars, v', h => by
    simp only [visit] at h
    cases hv : visit_list vars thenBody with
    | error e => rw [hv] at h; simp at h
    | ok v1 =>
      rw [hv] at h
      have h1 := visit_list_ok thenBody vars v1 hv
      have h2 := visit_list_ok elseBody v1 v' h
      simpa [boundNames] using visitOk_trans h1 h2
  | .whileS _cond body, vars, v', h => by
    simp only [visit] at h
    simpa [boundNames] using visit_list_ok body vars v' h
theorem visit_list_ok : ∀ (ss : Stmts) (vars v' : List (String × VarK)),
    visit_list vars ss = .ok v' → VisitOk vars v' (boundNamesList ss)
  | .nil, vars, v', h => by
    simp only [visit_list] at h
    injection h with h
    subst h
    simpa [boundNamesList] using visitOk_refl vars
  | .cons s rest, vars, v', h => by
    simp only [visit_list] at h
    cases hv : visit vars s with
    | error e => rw [hv] at h; simp at h
    | ok v1 =>
      rw [hv] at h
      have h1 := visit_ok s vars v1 hv
      have h2 := visit_list_ok rest v1 v' h
      simpa [boundNamesList] using visitOk_trans h1 h2
end

/-! ## Claim C3 -/

/-- C3 counterexample: in the one-statement body `y = x` the name `x` is
referenced directly (read by the assignment's right-hand side) but the
classifier's variable map is exactly `[y ↦ local]` with no entry for `x`;
so the map does not contain one entry per name bound *or referenced*
directly in the body. -/
theorem classifier_reads_cex :
    visit_list [] (.cons (.assignS (.cons (.nameT "y") .nil) (.nameE "x")) .nil) =
      .ok [("y", VarK.localK)] ∧
    "x" ∈ readNamesList (.cons (.assignS (.cons (.nameT "y") .nil) (.nameE "x")) .nil) ∧
    "x" ∉ varKeys [("y", VarK.localK)] := by
  refine ⟨?_, ?_, ?_⟩
  · simp [visit_list, visit, _assign_target_list, _assign_target, _register_local, lookupVar]
  · simp [readNamesList, readNames, exprNames]
  · decide

/-! ## Claim C8 and the C3 amended theorem (which uses the parameter
lemmas below) -/

theorem paramEntries_keys (names : List String) :
    ∀ i, varKeys (paramEntries i names) = names := by
  induction names with
  | nil => intro i; simp [paramEntries, varKeys]
  | cons n rest ih =>
    intro i
    simp only [paramEntries, varKeys, List.map_cons]
    rw [show List.map Prod.fst (paramEntries (i + 1) rest) = varKeys (paramEntries (i + 1) rest)
      from rfl, ih (i + 1)]

theorem paramEntries_get (names : List String) :
    ∀ i j (h : j < (paramEntries i names).length),
      ((paramEntries i names).get ⟨j, h⟩).2 = VarK.paramK (i + j) := by
  induction names with
  | nil => intro i j h; simp [paramEntries] at h
  | cons n rest ih =>
    intro i j h
    cases j with
    | zero => simp [paramEntries]
    | succ j' =>
      have hlen : j' < (paramEntries (i + 1) rest).length := by
        simpa [paramEntries] using h
      have hstep : ((paramEntries i (n :: rest)).get ⟨j' + 1, h⟩).2 =
          ((paramEntries (i + 1) rest).get ⟨j', hlen⟩).2 := rfl
      rw [hstep, ih (i + 1) j' hlen]
      congr 1
      omega

theorem registerParams_ok (names : List String) :
    ∀ (vars : List (String × VarK)) (i : Nat),
      (∀ n ∈ names, lookupVar vars n = none) → names.Nodup →
      registerParams vars i names = .ok (vars ++ paramEntries i names) := by
  induction names with
  | nil => intro vars i _ _; simp [registerParams, paramEntries]
  | cons n rest ih =>
    intro vars i hfresh hnd
    have hn : lookupVar vars n = none := hfresh n (List.mem_cons_self n rest)
    have hfresh' : ∀ m ∈ rest, lookupVar (vars ++ [(n, VarK.paramK i)]) m = none := by
      intro m hm
      rw [lookupVar_append, hfresh m (List.mem_cons_of_mem n hm)]
      have hmn : n ≠ m := fun e => (List.nodup_cons.mp hnd).1 (e ▸ hm)
      simp [lookupVar, hmn]
    simp only [registerParams, hn, Option.isSome_none, Bool.false_eq_true, if_false]
    rw [ih (vars ++ [(n, VarK.paramK i)]) (i + 1) hfresh' (List.nodup_cons.mp hnd).2]
    simp [paramEntries, List.append_assoc]

theorem registerParams_error (names : List String) :
    ∀ vars i, (¬ names.Nodup ∨ ∃ m ∈ names, (lookupVar vars m).isSome = true) →
      ∃ d, registerParams vars i names = .error (.duplicateArgument d) := by
  induction names with
  | nil =>
    intro vars i h
    rcases h with h | ⟨m, hm, _⟩
    · exact absurd List.nodup_nil h
    · simp at hm
  | cons n rest ih =>
    intro vars i h
    by_cases hn : (lookupVar vars n).isSome = true
    · exact ⟨n, by simp [registerParams, hn]⟩
    · have hnone : lookupVar vars n = none := by
        cases hv : lookupVar vars n with
        | none => rfl
        | some k => rw [hv] at hn; simp at hn
      have hstep : registerParams vars i (n :: rest) =
          registerParams (vars ++ [(n, VarK.paramK i)]) (i + 1) rest := by
        simp [registerParams, hnone]
      rw [hstep]
      apply ih
      have hkeep : ∀ m, (lookupVar vars m).isSome = true →
          (lookupVar (vars ++ [(n, VarK.paramK i)]) m).isSome = true := by
        intro m hm
        rw [lookupVar_append]
        cases hv : lookupVar vars m with
        | none => rw [hv] at hm; simp at hm
        | some k => simp
      rcases h with h | ⟨m, hm, hsome⟩
      · rw [List.nodup_cons] at h
        push_neg at h
        by_cases hmem : n ∈ rest
        · exact Or.inr ⟨n, hmem, by rw [lookupVar_append, hnone]; simp [lookupVar]⟩
        · exact Or.inl (h hmem)
      · rcases List.mem_cons.mp hm with rfl | hm'
        · exact absurd hsome hn
        · exact Or.inr ⟨m, hm', hkeep m hsome⟩

theorem lookupVar_paramEntries_isSome (names : List String) :
    ∀ i n, (lookupVar (paramEntries i names) n).isSome ↔ n ∈ names := by
  induction names with
  | nil => intro i n; simp [paramEntries, lookupVar]
  | cons m rest ih =>
    intro i n
    by_cases hmn : m = n
    · subst hmn
      simp [paramEntries, lookupVar]
    · simp only [paramEntries, lookupVar, hmn, if_false, List.mem_cons]
      rw [ih (i + 1) n]
      constructor
      · exact Or.inr
      · rintro (h | h)
        · exact absurd h.symm hmn
        · exact h

/-- C3 (amended): a successful classification yields a map whose keys are
duplicate-free and contain exactly the names *bound* directly in the body
(assignment / loop / with / except-handler targets, imports, global
declarations, nested definition names) — plus, for a function body, its
parameters — excluding nested function bodies' internals; names that are
only read do not appear. -/
theorem classifier_map_spec (a : Arguments) (body : Stmts)
    (v' w' : List (String × VarK)) :
    (visit_list [] body = .ok v' →
      (varKeys v').Nodup ∧
      ∀ n, (lookupVar v' n).isSome ↔ n ∈ boundNamesList body) ∧
    (FunctionBlockVisitor a body = .ok w' →
      (varKeys w').Nodup ∧
      ∀ n, (lookupVar w' n).isSome ↔ n ∈ paramList a ∨ n ∈ boundNamesList body) := by
  constructor
  · intro h
    obtain ⟨_, hnd, hmem⟩ := visit_list_ok body [] v' h
    refine ⟨hnd (by simp [varKeys]), fun n => ?_⟩
    rw [hmem n]
    simp [lookupVar]
  · intro h
    cases hreg : registerParams [] 0 (paramList a) with
    | error e =>
      simp only [FunctionBlockVisitor, hreg] at h
      simp at h
    | ok vars0 =>
      simp only [FunctionBlockVisitor, hreg] at h
      have hnd : (paramList a).Nodup := by
        by_contra hnd
        obtain ⟨d, hd⟩ := registerParams_error (paramList a) [] 0 (Or.inl hnd)
        rw [hreg] at hd
        simp at hd
      have hok := registerParams_ok (paramList a) [] 0 (fun n _ => rfl) hnd
      simp only [List.nil_append] at hok
      rw [hreg] at hok
      injection hok with hok
      subst hok
      obtain ⟨_, hnd2, hmem⟩ := visit_list_ok body (paramEntries 0 (paramList a)) w' h
      have hkeys : varKeys (paramEntries 0 (paramList a)) = paramList a :=
        paramEntries_keys (paramList a) 0
      refine ⟨hnd2 (by rw [hkeys]; exact hnd), fun n => ?_⟩
      rw [hmem n, lookupVar_paramEntries_isSome (paramList a) 0 n]

theorem classifier_map_spec_witness :
    ((varKeys [("y", VarK.localK)]).Nodup ∧
      ∀ n, (lookupVar [("y", VarK.localK)] n).isSome ↔
        n ∈ boundNamesList (.cons (.assignS (.cons (.nameT "y") .nil) (.nameE "x")) .nil)) ∧
    ((varKeys [("p", VarK.paramK 0), ("y", VarK.localK)]).Nodup ∧
      ∀ n, (lookupVar [("p", VarK.paramK 0), ("y", VarK.localK)] n).isSome ↔
        n ∈ paramList ⟨["p"], none, none⟩ ∨
        n ∈ boundNamesList (.cons (.assignS (.cons (.nameT "y") .nil) (.nameE "x")) .nil)) :=
  ⟨(classifier_map_spec ⟨["p"], none, none⟩
      (.cons (.assignS (.cons (.nameT "y") .nil) (.nameE "x")) .nil)
      [("y", VarK.localK)] [("p", VarK.paramK 0), ("y", VarK.localK)]).1
    (by simp [visit_list, visit, _assign_target_list, _assign_target, _register_local,
      lookupVar]),
   (classifier_map_spec ⟨["p"], none, none⟩
      (.cons (.assignS (.cons (.nameT "y") .nil) (.nameE "x")) .nil)
      [("y", VarK.localK)] [("p", VarK.paramK 0), ("y", VarK.localK)]).2
    (by simp [FunctionBlockVisitor, registerParams, paramList, Option.toList, visit_list,
      visit, _assign_target_list, _assign_target, _register_local, lookupVar])⟩

/-- C8: classification of a function body registers all parameters first,
in declaration order (positional, then variable-positional, then
variable-keyword), each with parameter kind and ascending ordinal indices
starting at 0; a repeated parameter name makes classification fail with
the duplicate-argument error. -/
theorem functionBlockVisitor_params (a : Arguments) (body : Stmts) :
    (¬ (paramList a).Nodup →
      ∃ d, FunctionBlockVisitor a body = .error (.duplicateArgument d)) ∧
    ((paramList a).Nodup →
      registerParams [] 0 (paramList a) = .ok (paramEntries 0 (paramList a)) ∧
      varKeys (paramEntries 0 (paramList a)) =
        a.args ++ a.vararg.toList ++ a.kwarg.toList ∧
      (∀ j (h : j < (paramEntries 0 (paramList a)).length),
        ((paramEntries 0 (paramList a)).get ⟨j, h⟩).2 = VarK.paramK j) ∧
      ∀ v', FunctionBlockVisitor a body = .ok v' →
        ∃ t, v' = paramEntries 0 (paramList a) ++ t) := by
  constructor
  · intro hnd
    obtain ⟨d, hd⟩ := registerParams_error (paramList a) [] 0 (Or.inl hnd)
    exact ⟨d, by simp [FunctionBlockVisitor, hd]⟩
  · intro hnd
    have hok := registerParams_ok (paramList a) [] 0 (fun n _ => rfl) hnd
    simp only [List.nil_append] at hok
    refine ⟨hok, ?_, ?_, ?_⟩
    · rw [paramEntries_keys (paramList a) 0]
      rfl
    · intro j h
      simpa using paramEntries_get (paramList a) 0 j h
    · intro v' hv
      simp only [FunctionBlockVisitor, hok] at hv
      obtain ⟨⟨t, hp⟩, _, _⟩ := visit_list_ok body (paramEntries 0 (paramList a)) v' hv
      exact ⟨t, hp⟩

theorem functionBlockVisitor_params_witness :
    registerParams [] 0 (paramList ⟨["a", "b"], some "c", none⟩) =
      .ok (paramEntries 0 (paramList ⟨["a", "b"], some "c", none⟩)) ∧
    ∃ d, FunctionBlockVisitor ⟨["a", "a"], none, none⟩ .nil =
      .error (.duplicateArgument d) :=
  ⟨((functionBlockVisitor_params ⟨["a", "b"], some "c", none⟩ .nil).2 (by decide)).1,
   (functionBlockVisitor_params ⟨["a", "a"], none, none⟩ .nil).1 (by decide)⟩

/-! ## Claim C6 -/

theorem pickFree_none (t : String) : ∀ (l : List Temp), pickFree t l = none →
    ∀ u ∈ l, u.type_ ≠ t := by
  intro l
  induction l with
  | nil => intro _ u hu; simp at hu
  | cons v rest ih =>
    intro h u hu
    simp only [pickFree] at h
    cases hr : pickFree t rest with
    | none =>
      rw [hr] at h
      by_cases hv : v.type_ = t
      · rw [if_pos hv] at h
        exact absurd h (by simp)
      · rcases List.mem_cons.mp hu with rfl | hu'
        · exact hv
        · exact ih hr u hu'
    | some w =>
      simp only [hr] at h
      by_cases hc : v.type_ = t ∧ v.name ≤ w.name
      · rw [if_pos hc] at h
        exact absurd h (by simp)
      · rw [if_neg hc] at h
        exact absurd h (by simp)

theorem pickFree_some (t : String) : ∀ (l : List Temp) (w : Temp), pickFree t l = some w →
    w ∈ l ∧ w.type_ = t ∧ ∀ u ∈ l, u.type_ = t → w.name ≤ u.name := by
  intro l
  induction l with
  | nil => intro w h; simp [pickFree] at h
  | cons v rest ih =>
    intro w h
    simp only [pickFree] at h
    cases hr : pickFree t rest with
    | none =>
      rw [hr] at h
      by_cases hv : v.type_ = t
      · rw [if_pos hv] at h
        injection h with h
        subst h
        refine ⟨List.mem_cons_self _ _, hv, ?_⟩
        intro u hu hut
        rcases List.mem_cons.mp hu with rfl | hu'
        · exact le_refl _
        · exact absurd hut (pickFree_none t rest hr u hu')
      · rw [if_neg hv] at h
        exact absurd h (by simp)
    | some w' =>
      simp only [hr] at h
      obtain ⟨hw'mem, hw't, hw'min⟩ := ih w' hr
      by_cases hc : v.type_ = t ∧ v.name ≤ w'.name
      · rw [if_pos hc] at h
        injection h with h
        subst h
        refine ⟨List.mem_cons_self _ _, hc.1, ?_⟩
        intro u hu hut
        rcases List.mem_cons.mp hu with rfl | hu'
        · exact le_refl _
        · exact le_trans hc.2 (hw'min u hu' hut)
      · rw [if_neg hc] at h
        injection h with h
        subst h
        refine ⟨List.mem_cons_of_mem v hw'mem, hw't, ?_⟩
        intro u hu hut
        rcases List.mem_cons.mp hu with rfl | hu'
        · rcases not_and_or.mp hc with hcv | hcn
          · exact absurd hut hcv
          · exact le_of_not_le hcn
        · exact hw'min u hu' hut

theorem pickFree_isSome (t : String) (l : List Temp) (v : Temp) (hv : v ∈ l)
    (ht : v.type_ = t) : (pickFree t l).isSome = true := by
  cases h : pickFree t l with
  | none => exact absurd ht (pickFree_none t l h v hv)
  | some w => rfl

theorem tempInv_init : TempInv initBlock := by
  refine ⟨List.nodup_nil, List.nodup_nil, ?_, ?_, ?_⟩ <;>
    intro v hv <;> simp [initBlock] at hv

theorem tempInv_alloc (t : String) (s : BlockState) (h : TempInv s) :
    TempInv (alloc_temp t s).2 := by
  obtain ⟨hfn, hun, hdisj, hfb, hub⟩ := h
  cases hp : pickFree t s.free_temps with
  | some v =>
    obtain ⟨hvmem, hvt, _⟩ := pickFree_some t s.free_temps v hp
    have hvnotused : v ∉ s.used_temps := hdisj v hvmem
    have hstate : (alloc_temp t s).2 =
        { s with free_temps := s.free_temps.erase v,
                 used_temps := s.used_temps.insert v } := by
      simp [alloc_temp, hp]
    rw [hstate, List.insert_of_not_mem hvnotused]
    refine ⟨hfn.erase v, hun.cons hvnotused, ?_, ?_, ?_⟩
    · intro w hw
      have hwf := List.mem_of_mem_erase hw
      have hwnv : w ≠ v := (hfn.mem_erase_iff.mp hw).1
      simp only [List.mem_cons, not_or]
      exact ⟨hwnv, hdisj w hwf⟩
    · intro w hw
      exact hfb w (List.mem_of_mem_erase hw)
    · intro w hw
      rcases List.mem_cons.mp hw with rfl | hw'
      · exact hfb w hvmem
      · exact hub w hw'
  | none =>
    have hvnotused : (⟨s.temp_index + 1, t⟩ : Temp) ∉ s.used_temps := by
      intro hmem
      have := hub _ hmem
      simp at this
    have hstate : (alloc_temp t s).2 =
        { s with temp_index := s.temp_index + 1,
                 used_temps := s.used_temps.insert ⟨s.temp_index + 1, t⟩ } := by
      simp [alloc_temp, hp]
    rw [hstate, List.insert_of_not_mem hvnotused]
    refine ⟨hfn, hun.cons hvnotused, ?_, ?_, ?_⟩
    · intro w hw
      have hwnv : w ≠ (⟨s.temp_index + 1, t⟩ : Temp) := by
        intro e
        have := hfb w hw
        rw [e] at this
        simp at this
      simp only [List.mem_cons, not_or]
      exact ⟨hwnv, hdisj w hw⟩
    · intro w hw
      exact Nat.le_succ_of_le (hfb w hw)
    · intro w hw
      rcases List.mem_cons.mp hw with rfl | hw'
      · exact Nat.le_refl _
      · exact Nat.le_succ_of_le (hub w hw')

theorem tempInv_free (v : Temp) (s s' : BlockState) (h : TempInv s)
    (hf : free_temp v s = some s') : TempInv s' := by
  obtain ⟨hfn, hun, hdisj, hfb, hub⟩ := h
  by_cases hv : v ∈ s.used_temps
  · simp only [free_temp, if_pos hv] at hf
    injection hf with hf
    subst hf
    have hvnotfree : v ∉ s.free_temps := fun hmem => hdisj v hmem hv
    rw [List.insert_of_not_mem hvnotfree]
    refine ⟨hfn.cons hvnotfree, hun.erase v, ?_, ?_, ?_⟩
    · intro w hw
      rcases List.mem_cons.mp hw with rfl | hw'
      · intro hmem
        exact (hun.mem_erase_iff.mp hmem).1 rfl
      · intro hmem
        exact hdisj w hw' (List.mem_of_mem_erase hmem)
    · intro w hw
      rcases List.mem_cons.mp hw with rfl | hw'
      · exact hub w hv
      · exact hfb w hw'
    · intro w hw
      exact hub w (List.mem_of_mem_erase hw)
  · simp [free_temp, hv] at hf

theorem tempInv_genlabel (b : Bool) (s : BlockState) (h : TempInv s) :
    TempInv (genlabel b s).2 := h

theorem tempInv_push (s : BlockState) (h : TempInv s) :
    TempInv (push_loop s).2 := h

theorem tempInv_pop (s s' : BlockState) (h : TempInv s) (hp : pop_loop s = some s') :
    TempInv s' := by
  cases hl : s.loop_stack with
  | nil => simp [pop_loop, hl] at hp
  | cons a rest =>
    simp only [pop_loop, hl] at hp
    injection hp with hp
    subst hp
    exact h

theorem reachable_tempInv (s : BlockState) (h : Reachable s) : TempInv s := by
  induction h with
  | init => exact tempInv_init
  | alloc t s _ ih => exact tempInv_alloc t s ih
  | free v s s' _ hf ih => exact tempInv_free v s s' ih hf
  | label b s _ ih => exact tempInv_genlabel b s ih
  | pushL s _ ih => exact tempInv_push s ih
  | popL s s' _ hp ih => exact tempInv_pop s s' ih hp

theorem alloc_temp_free_eq (t : String) (s1 : BlockState) (v : Temp)
    (hvt : v.type_ = t) (hvin : v ∈ s1.used_temps)
    (hnotfree : v ∉ s1.free_temps)
    (hmin : ∀ u ∈ s1.free_temps, u.type_ = t → v.name ≤ u.name) :
    ∃ s2, free_temp v s1 = some s2 ∧ (alloc_temp t s2).1.name = v.name := by
  have hs2 : free_temp v s1 =
      some { s1 with used_temps := s1.used_temps.erase v,
                     free_temps := s1.free_temps.insert v } := by
    simp [free_temp, hvin]
  refine ⟨_, hs2, ?_⟩
  have hps := pickFree_isSome t (v :: s1.free_temps) v (List.mem_cons_self v _) hvt
  cases hq : pickFree t (v :: s1.free_temps) with
  | none => rw [hq] at hps; simp at hps
  | some w =>
    obtain ⟨hwmem, hwt, hwmin⟩ := pickFree_some t _ w hq
    have hwv : w.name = v.name := by
      refine le_antisymm (hwmin v (List.mem_cons_self v _) hvt) ?_
      rcases List.mem_cons.mp hwmem with rfl | hw'
      · exact le_refl _
      · exact hmin w hw' hwt
    have halloc : (alloc_temp t { s1 with used_temps := s1.used_temps.erase v,
                                          free_temps := s1.free_temps.insert v }).1 = w := by
      simp only [alloc_temp, List.insert_of_not_mem hnotfree, hq]
    rw [halloc, hwv]

/-- C6: from any reachable allocator state, `alloc_temp` never returns a
descriptor that is currently in the used set; and in the sequence
`alloc_temp(t)` returning `v`, `free_temp(v)`, `alloc_temp(t)`, the
second allocation returns a descriptor with the same generated name
as `v`. -/
theorem alloc_temp_spec (s : BlockState) (hr : Reachable s) (t : String) :
    (alloc_temp t s).1 ∉ s.used_temps ∧
    ∃ s2, free_temp (alloc_temp t s).1 (alloc_temp t s).2 = some s2 ∧
      (alloc_temp t s2).1.name = (alloc_temp t s).1.name := by
  obtain ⟨hfn, hun, hdisj, hfb, hub⟩ := reachable_tempInv s hr
  cases hp : pickFree t s.free_temps with
  | some v =>
    obtain ⟨hvmem, hvt, hvmin⟩ := pickFree_some t s.free_temps v hp
    have hvnotused : v ∉ s.used_temps := hdisj v hvmem
    have hv1 : (alloc_temp t s).1 = v := by simp [alloc_temp, hp]
    have hs1 : (alloc_temp t s).2 =
        { s with free_temps := s.free_temps.erase v,
                 used_temps := s.used_temps.insert v } := by
      simp [alloc_temp, hp]
    rw [hv1, hs1]
    refine ⟨hvnotused, ?_⟩
    refine alloc_temp_free_eq t _ v hvt (List.mem_insert_self v s.used_temps) ?_ ?_
    · intro hmem
      exact (hfn.mem_erase_iff.mp hmem).1 rfl
    · intro u hu hut
      exact hvmin u (List.mem_of_mem_erase hu) hut
  | none =>
    have hvnotused : (⟨s.temp_index + 1, t⟩ : Temp) ∉ s.used_temps := by
      intro hmem
      have := hub _ hmem
      simp at this
    have hvnotfree : (⟨s.temp_index + 1, t⟩ : Temp) ∉ s.free_temps := by
      intro hmem
      have := hfb _ hmem
      simp at this
    have hv1 : (alloc_temp t s).1 = ⟨s.temp_index + 1, t⟩ := by simp [alloc_temp, hp]
    have hs1 : (alloc_temp t s).2 =
        { s with temp_index := s.temp_index + 1,
                 used_temps := s.used_temps.insert ⟨s.temp_index + 1, t⟩ } := by
      simp [alloc_temp, hp]
    rw [hv1, hs1]
    refine ⟨hvnotused, ?_⟩
    refine alloc_temp_free_eq t _ _ rfl (List.mem_insert_self _ _) hvnotfree ?_
    intro u hu hut
    exact absurd hut (pickFree_none t s.free_temps hp u hu)

theorem alloc_temp_spec_witness :
    (alloc_temp "*πg.Object" initBlock).1 ∉ initBlock.used_temps ∧
    ∃ s2, free_temp (alloc_temp "*πg.Object" initBlock).1
        (alloc_temp "*πg.Object" initBlock).2 = some s2 ∧
      (alloc_temp "*πg.Object" s2).1.name = (alloc_temp "*πg.Object" initBlock).1.name :=
  alloc_temp_spec initBlock Reachable.init "*πg.Object"

/-! ## Claims C1 and C2 -/

theorem intern_pyName (s : String) (st : CompState) : ((intern s st).1).pyName = s := by
  simp only [intern]
  split <;> rfl

theorem classWalk_skip_to_function (name : String) :
    ∀ (pre : List BlockK) (fvars : List (String × VarK)) (post : List BlockK) (k : VarK),
      BlockK.moduleB ∉ pre →
      (∀ vs, BlockK.functionB vs ∈ pre → lookupVar vs name = none) →
      lookupVar fvars name = some k →
      classWalk name (pre ++ BlockK.functionB fvars :: post) = some k := by
  intro pre
  induction pre with
  | nil =>
    intro fvars post k _ _ hk
    simp only [List.nil_append, classWalk, hk]
  | cons b rest ih =>
    intro fvars post k hmod hfn hk
    cases b with
    | moduleB => exact absurd (List.mem_cons_self _ _) hmod
    | classB g =>
      simp only [List.cons_append, classWalk]
      exact ih fvars post k (fun hm => hmod (List.mem_cons_of_mem _ hm))
        (fun vs hvs => hfn vs (List.mem_cons_of_mem _ hvs)) hk
    | functionB vs =>
      have hnone := hfn vs (List.mem_cons_self _ _)
      simp only [List.cons_append, classWalk, hnone]
      exact ih fvars post k (fun hm => hmod (List.mem_cons_of_mem _ hm))
        (fun vs' hvs' => hfn vs' (List.mem_cons_of_mem _ hvs')) hk

/-- C2: for a class-scope name not declared global in the class body, the
outward walk skips intervening class scopes and stops at the first
function-scope ancestor whose variable map contains the name, whatever
that entry's kind; a reference to the enclosing local is captured iff the
entry's kind is not global; and the emitted instruction is the single
combined lookup that tries the captured local (or none) first, then the
class's own namespace, then the module namespace, yielding nothing when
all three miss. -/
theorem classBlock_resolve_walk (gv : List String) (pre : List BlockK)
    (fvars : List (String × VarK)) (post : List BlockK) (name : String)
    (st : CompState) (k : VarK)
    (hng : name ∉ gv)
    (hmod : BlockK.moduleB ∉ pre)
    (hfn : ∀ vs, BlockK.functionB vs ∈ pre → lookupVar vs name = none)
    (hk : lookupVar fvars name = some k) :
    classWalk name (pre ++ BlockK.functionB fvars :: post) = some k ∧
    ClassBlock.capturedLocal ⟨gv, pre ++ BlockK.functionB fvars :: post⟩ name =
      (if k = .globalK then none else some (adjust_local_name name)) ∧
    ∃ e : StrExpr, e.pyName = name ∧
      (ClassBlock.resolve_name ⟨gv, pre ++ BlockK.functionB fvars :: post⟩ name st).2.1 =
        [Instr.resolveClass
          (ClassBlock.resolve_name ⟨gv, pre ++ BlockK.functionB fvars :: post⟩ name st).1
          (if k = .globalK then none else some (adjust_local_name name)) e] ∧
      ∀ (locals classNS moduleNS : String → Option Nat),
        evalResolve locals classNS moduleNS
          (Instr.resolveClass
            (ClassBlock.resolve_name ⟨gv, pre ++ BlockK.functionB fvars :: post⟩ name st).1
            (if k = .globalK then none else some (adjust_local_name name)) e) =
          (((if k = .globalK then none
             else some (adjust_local_name name)).bind locals).orElse fun _ =>
            (classNS name).orElse fun _ => moduleNS name) := by
  have hwalk := classWalk_skip_to_function name pre fvars post k hmod hfn hk
  have hcapt : ClassBlock.capturedLocal ⟨gv, pre ++ BlockK.functionB fvars :: post⟩ name =
      (if k = .globalK then none else some (adjust_local_name name)) := by
    simp only [ClassBlock.capturedLocal, hwalk]
    rw [if_neg hng]
    cases k with
    | globalK => simp
    | localK => simp
    | paramK i => simp
  refine ⟨hwalk, hcapt, ?_⟩
  refine ⟨(intern name { st with
      temps := (alloc_temp "*πg.Object" st.temps).2 }).1, intern_pyName name _, ?_, ?_⟩
  · simp [ClassBlock.resolve_name, hcapt]
  · intro locals classNS moduleNS
    simp [evalResolve, intern_pyName]

theorem classBlock_resolve_walk_witness :
    classWalk "x" ([.classB ["q"], .functionB [("z", VarK.localK)]] ++
      BlockK.functionB [("x", VarK.localK)] :: [BlockK.moduleB]) = some VarK.localK ∧
    ClassBlock.capturedLocal ⟨[], [.classB ["q"], .functionB [("z", VarK.localK)]] ++
      BlockK.functionB [("x", VarK.localK)] :: [BlockK.moduleB]⟩ "x" =
      (if VarK.localK = .globalK then none else some (adjust_local_name "x")) := by
  have h := classBlock_resolve_walk [] [.classB ["q"], .functionB [("z", VarK.localK)]]
    [("x", VarK.localK)] [BlockK.moduleB] "x" initComp VarK.localK
    (by decide) (by decide)
    (fun vs hvs => by
      simp only [List.mem_cons, List.not_mem_nil, or_false] at hvs
      rcases hvs with hvs | hvs
      · exact absurd hvs (by simp)
      · injection hvs with hv
        subst hv
        decide)
    (by decide)
  exact ⟨h.1, h.2.1⟩

/-- C1 counterexample: with `x` declared global in a class body, the
class scope emits `ResolveClass(πF, πClass, nil, πGlobals, x)` while the
module scope emits `ResolveGlobal(πF, πGlobals, x)`; under the spec's
stated semantics of these runtime primitives, namespaces in which the
class's own dict binds `x ↦ 1` while the module globals bind `x ↦ 2`
make the class-scope resolution produce 1 and direct module resolution
produce 2 — not identical, so resolution is not delegated to the module. -/
theorem classBlock_global_resolve_cex :
    evalResolve (fun _ => none) (fun n => if n = "x" then some 1 else none)
      (fun n => if n = "x" then some 2 else none)
      (((ClassBlock.resolve_name ⟨["x"], [.functionB [("x", VarK.localK)], .moduleB]⟩
          "x" initComp).2.1).headD (.setLocal "" "")) = some 1 ∧
    evalResolve (fun _ => none) (fun n => if n = "x" then some 1 else none)
      (fun n => if n = "x" then some 2 else none)
      (((classResolveGlobalSpec "x" initComp).2.1).headD (.setLocal "" "")) = some 2 ∧
    ¬ (evalResolve (fun _ => none) (fun n => if n = "x" then some 1 else none)
        (fun n => if n = "x" then some 2 else none)
        (((ClassBlock.resolve_name ⟨["x"], [.functionB [("x", VarK.localK)], .moduleB]⟩
            "x" initComp).2.1).headD (.setLocal "" "")) =
       evalResolve (fun _ => none) (fun n => if n = "x" then some 1 else none)
        (fun n => if n = "x" then some 2 else none)
        (((classResolveGlobalSpec "x" initComp).2.1).headD (.setLocal "" ""))) :=
  ⟨rfl, rfl, by decide⟩

/-- C1 (amended): for a name declared global in the class body,
`resolve_name` captures no enclosing local — regardless of any
same-named local in an enclosing function — and emits the combined
lookup with a `nil` local, which probes the class's own namespace before
the module namespace; it agrees with direct module-scope resolution
exactly when the class's own namespace does not bind the name. -/
theorem classBlock_global_resolve_amended (gv : List String) (parents : List BlockK)
    (name : String) (st st' : CompState) (hg : name ∈ gv) :
    ClassBlock.capturedLocal ⟨gv, parents⟩ name = none ∧
    ∃ e : StrExpr, e.pyName = name ∧
      (ClassBlock.resolve_name ⟨gv, parents⟩ name st).2.1 =
        [Instr.resolveClass (ClassBlock.resolve_name ⟨gv, parents⟩ name st).1 none e] ∧
      ∀ (locals classNS moduleNS : String → Option Nat),
        evalResolve locals classNS moduleNS
          (Instr.resolveClass (ClassBlock.resolve_name ⟨gv, parents⟩ name st).1 none e) =
          (classNS name).orElse (fun _ => moduleNS name) ∧
        (classNS name = none →
          ∃ e2 : StrExpr,
            (classResolveGlobalSpec name st').2.1 =
              [Instr.resolveGlobal (classResolveGlobalSpec name st').1 e2] ∧
            evalResolve locals classNS moduleNS
              (Instr.resolveClass (ClassBlock.resolve_name ⟨gv, parents⟩ name st).1 none e) =
            evalResolve locals classNS moduleNS
              (Instr.resolveGlobal (classResolveGlobalSpec name st').1 e2)) := by
  have hcapt : ClassBlock.capturedLocal ⟨gv, parents⟩ name = none := by
    simp only [ClassBlock.capturedLocal]
    rw [if_pos hg]
  refine ⟨hcapt, (intern name { st with
      temps := (alloc_temp "*πg.Object" st.temps).2 }).1, intern_pyName name _, ?_, ?_⟩
  · simp [ClassBlock.resolve_name, hcapt]
  · intro locals classNS moduleNS
    constructor
    · simp [evalResolve, intern_pyName]
    · intro hcn
      refine ⟨(intern name { st' with
          temps := (alloc_temp "*πg.Object" st'.temps).2 }).1, ?_, ?_⟩
      · simp [classResolveGlobalSpec, ModuleBlock.resolve_name, _resolve_global]
      · simp [evalResolve, intern_pyName, hcn]

theorem classBlock_global_resolve_amended_witness :
    ClassBlock.capturedLocal ⟨["x"], [.functionB [("x", VarK.localK)], .moduleB]⟩ "x" = none :=
  (classBlock_global_resolve_amended ["x"] [.functionB [("x", VarK.localK)], .moduleB]
    "x" initComp initComp (by decide)).1

end GrumpyBlock
